import Mathlib

/-
Verification of the internal logic of a VS Code extension that drives the
Kaggle CLI: the run/poll/download lifecycle, credential resolution, shell
argument escaping, CSV parsing, and the project-configuration round trip.
Each definition is a shallow embedding of the corresponding TypeScript
function; theorems check the documented properties against those embeddings.
-/

namespace KaggleExt

/-! ### Character constants

Named constants for the quoting characters, used throughout the CSV and
shell-escaping embeddings. -/

/-- The double-quote character. -/
def dquote : Char := Char.ofNat 34

/-- The single-quote character. -/
def squote : Char := Char.ofNat 39

/-- The backslash character. -/
def bslash : Char := Char.ofNat 92

/-! ### Poll loop (`pollAndDownload` in `extension.ts`)

The loop repeatedly invokes `kaggle kernels output` into the destination
directory, then reads the directory; any exception from the fetch or the read
is swallowed.  One attempt is modelled by a `FetchOutcome`: `none` for a
thrown exception, `some n` for a successful fetch after which the output
directory holds `n` entries.  Time is modelled in milliseconds; each attempt
itself takes no time and the sleep between attempts is
`max 1000 (intervalSeconds * 1000)`, exactly as in the source. -/

/-- Outcome of one poll attempt: `none` models a thrown fetch/readdir error,
`some n` a successful fetch observing `n` entries in the output directory. -/
abbrev FetchOutcome := Option Nat

/-- Result of the poll loop: completion after a number of attempts, or timeout. -/
inductive PollResult where
  | complete (attempts : Nat)
  | timedOut
deriving DecidableEq, Repr

/-- The sleep between attempts: `Math.max(1000, intervalSeconds * 1000)`. -/
def sleepMs (intervalSeconds : Nat) : Nat := max 1000 (intervalSeconds * 1000)

/-- Whether an attempt observed a non-empty output directory.  A thrown fetch
error (`none`) counts as not ready, exactly like an empty directory. -/
def nonEmptyObs : FetchOutcome → Bool
  | some n => decide (0 < n)
  | none => false

/-- The body of `pollAndDownload`'s `while` loop: while the elapsed time is
below `timeoutSeconds * 1000`, run one attempt; a non-empty observation
returns `complete`, anything else sleeps and retries. -/
def pollGo (f : Nat → FetchOutcome) (intervalSeconds timeoutSeconds : Nat)
    (attempt elapsed : Nat) : PollResult :=
  if _h : elapsed < timeoutSeconds * 1000 then
    match f attempt with
    | some n =>
      if 0 < n then PollResult.complete (attempt + 1)
      else pollGo f intervalSeconds timeoutSeconds (attempt + 1) (elapsed + sleepMs intervalSeconds)
    | none => pollGo f intervalSeconds timeoutSeconds (attempt + 1) (elapsed + sleepMs intervalSeconds)
  else PollResult.timedOut
termination_by timeoutSeconds * 1000 - elapsed
decreasing_by
  all_goals
    have h1000 : 1000 ≤ sleepMs intervalSeconds := Nat.le_max_left _ _
    omega

/-- The function `pollAndDownload` from `extension.ts`, with the fetch stubbed by `f`. -/
def pollAndDownload (f : Nat → FetchOutcome) (intervalSeconds timeoutSeconds : Nat) : PollResult :=
  pollGo f intervalSeconds timeoutSeconds 0 0

theorem pollGo_complete (f : Nat → FetchOutcome) (i t : Nat) (k : Nat) :
    ∀ attempt elapsed,
      (∀ j, j < k → nonEmptyObs (f (attempt + j)) = false) →
      nonEmptyObs (f (attempt + k)) = true →
      elapsed + k * sleepMs i < t * 1000 →
      pollGo f i t attempt elapsed = PollResult.complete (attempt + k + 1) := by
  induction k with
  | zero =>
    intro attempt elapsed _ hhit hlt
    rw [pollGo]
    simp only [Nat.add_zero] at hhit hlt
    rw [dif_pos (by omega)]
    cases hf : f attempt with
    | none => rw [hf] at hhit; simp [nonEmptyObs] at hhit
    | some n =>
      rw [hf] at hhit
      simp only [nonEmptyObs, decide_eq_true_eq] at hhit
      simp [hhit]
  | succ k ih =>
    intro attempt elapsed hmiss hhit hlt
    have hs : 1000 ≤ sleepMs i := Nat.le_max_left _ _
    rw [pollGo]
    rw [dif_pos (by omega)]
    have h0 : nonEmptyObs (f attempt) = false := by
      have := hmiss 0 (Nat.succ_pos k)
      simpa using this
    have hrec :
        pollGo f i t (attempt + 1) (elapsed + sleepMs i)
          = PollResult.complete (attempt + 1 + k + 1) := by
      apply ih
      · intro j hj
        have := hmiss (j + 1) (by omega)
        simpa [Nat.add_assoc, Nat.add_comm 1 j] using this
      · have : attempt + 1 + k = attempt + (k + 1) := by omega
        rw [this]; exact hhit
      · have : elapsed + sleepMs i + k * sleepMs i = elapsed + (k + 1) * sleepMs i := by ring
        omega
    rw [show attempt + 1 + k + 1 = attempt + (k + 1) + 1 by omega] at hrec
    cases hf : f attempt with
    | none => simpa [hf] using hrec
    | some n =>
      rw [hf] at h0
      simp only [nonEmptyObs, decide_eq_false_iff_not] at h0
      simpa [hf, if_neg h0] using hrec

theorem pollGo_timedOut (f : Nat → FetchOutcome) (i t : Nat) :
    ∀ m attempt elapsed, t * 1000 - elapsed ≤ m →
      (∀ j, elapsed + j * sleepMs i < t * 1000 → nonEmptyObs (f (attempt + j)) = false) →
      pollGo f i t attempt elapsed = PollResult.timedOut := by
  intro m
  induction m with
  | zero =>
    intro attempt elapsed hm _
    rw [pollGo]
    rw [dif_neg (by omega)]
  | succ m ih =>
    intro attempt elapsed hm hmiss
    have hs : 1000 ≤ sleepMs i := Nat.le_max_left _ _
    rw [pollGo]
    by_cases hlt : elapsed < t * 1000
    · rw [dif_pos hlt]
      have h0 : nonEmptyObs (f attempt) = false := by
        have := hmiss 0 (by simpa using hlt)
        simpa using this
      have hrec :
          pollGo f i t (attempt + 1) (elapsed + sleepMs i) = PollResult.timedOut := by
        apply ih
        · omega
        · intro j hj
          have := hmiss (j + 1) (by
            have : elapsed + (j + 1) * sleepMs i = elapsed + sleepMs i + j * sleepMs i := by ring
            omega)
          simpa [Nat.add_assoc, Nat.add_comm 1 j] using this
      cases hf : f attempt with
      | none => simpa [hf] using hrec
      | some n =>
        rw [hf] at h0
        simp only [nonEmptyObs, decide_eq_false_iff_not] at h0
        simpa [hf, if_neg h0] using hrec
    · rw [dif_neg hlt]

theorem pollGo_obs_congr (f g : Nat → FetchOutcome) (i t : Nat)
    (h : ∀ k, nonEmptyObs (f k) = nonEmptyObs (g k)) :
    ∀ m attempt elapsed, t * 1000 - elapsed ≤ m →
      pollGo f i t attempt elapsed = pollGo g i t attempt elapsed := by
  intro m
  induction m with
  | zero =>
    intro attempt elapsed hm
    have hnot : ¬ elapsed < t * 1000 := by omega
    conv_lhs => rw [pollGo]
    conv_rhs => rw [pollGo]
    rw [dif_neg hnot, dif_neg hnot]
  | succ m ih =>
    intro attempt elapsed hm
    have hs : 1000 ≤ sleepMs i := Nat.le_max_left _ _
    conv_lhs => rw [pollGo]
    conv_rhs => rw [pollGo]
    by_cases hlt : elapsed < t * 1000
    · rw [dif_pos hlt, dif_pos hlt]
      have hobs := h attempt
      have hrec := ih (attempt + 1) (elapsed + sleepMs i) (by omega)
      cases hf : f attempt with
      | none =>
        cases hg : g attempt with
        | none => simpa [hf, hg] using hrec
        | some n =>
          rw [hf, hg] at hobs
          simp only [nonEmptyObs] at hobs
          have hn : ¬ 0 < n := by
            intro hx
            rw [eq_comm, decide_eq_false_iff_not] at hobs
            exact hobs hx
          simp only [hf, hg, if_neg hn]
          exact hrec
      | some n =>
        cases hg : g attempt with
        | none =>
          rw [hf, hg] at hobs
          simp only [nonEmptyObs] at hobs
          have hn : ¬ 0 < n := by
            intro hx
            rw [decide_eq_false_iff_not] at hobs
            exact hobs hx
          simp only [hf, hg, if_neg hn]
          exact hrec
        | some n' =>
          rw [hf, hg] at hobs
          simp only [nonEmptyObs, decide_eq_decide] at hobs
          simp only [hf, hg]
          by_cases hn : 0 < n
          · rw [if_pos hn, if_pos (hobs.mp hn)]
          · rw [if_neg hn, if_neg (fun hx => hn (hobs.mpr hx))]
            exact hrec
    · rw [dif_neg hlt, dif_neg hlt]

/-- C1: the poll loop completes at the first attempt observing a non-empty
output directory (provided its start time is still before the timeout), times
out when no attempt started before the timeout observes a non-empty
directory, and is insensitive to whether a not-ready attempt was an empty
directory or a thrown fetch error (errors are swallowed, never propagated).
In particular, with a fetch empty for the first N attempts and non-empty
afterwards, interval 1s and timeout (N+2)s, it reports completion after
exactly N+1 attempts; with a fetch that always yields an empty directory,
interval 1s and timeout 2s, it reports a timeout. -/
theorem C1_poll_loop_lifecycle :
    (∀ f i t k, (∀ j, j < k → nonEmptyObs (f j) = false) → nonEmptyObs (f k) = true →
        k * sleepMs i < t * 1000 →
        pollAndDownload f i t = PollResult.complete (k + 1))
  ∧ (∀ f i t, (∀ k, k * sleepMs i < t * 1000 → nonEmptyObs (f k) = false) →
        pollAndDownload f i t = PollResult.timedOut)
  ∧ (∀ f g i t, (∀ k, nonEmptyObs (f k) = nonEmptyObs (g k)) →
        pollAndDownload f i t = pollAndDownload g i t)
  ∧ (∀ f N, (∀ j, j < N → f j = some 0) → (∀ j, N ≤ j → ∃ m, f j = some m ∧ 0 < m) →
        pollAndDownload f 1 (N + 2) = PollResult.complete (N + 1))
  ∧ (∀ f : Nat → FetchOutcome, (∀ k, f k = some 0) →
        pollAndDownload f 1 2 = PollResult.timedOut) := by
  have hcomplete : ∀ f i t k, (∀ j, j < k → nonEmptyObs (f j) = false) →
      nonEmptyObs (f k) = true → k * sleepMs i < t * 1000 →
      pollAndDownload f i t = PollResult.complete (k + 1) := by
    intro f i t k hmiss hhit hlt
    have := pollGo_complete f i t k 0 0 (by simpa using hmiss) (by simpa using hhit)
      (by omega)
    simpa using this
  have htimeout : ∀ f i t, (∀ k, k * sleepMs i < t * 1000 → nonEmptyObs (f k) = false) →
      pollAndDownload f i t = PollResult.timedOut := by
    intro f i t hmiss
    exact pollGo_timedOut f i t (t * 1000) 0 0 (by omega)
      (fun j hj => by simpa using hmiss j (by omega))
  refine ⟨hcomplete, htimeout, ?_, ?_, ?_⟩
  · intro f g i t h
    exact pollGo_obs_congr f g i t h (t * 1000) 0 0 (by omega)
  · intro f N hempty hfull
    apply hcomplete f 1 (N + 2) N
    · intro j hj
      rw [hempty j hj]
      simp [nonEmptyObs]
    · obtain ⟨m, hm, hmpos⟩ := hfull N (Nat.le_refl N)
      rw [hm]
      simpa [nonEmptyObs] using hmpos
    · have hone : sleepMs 1 = 1000 := rfl
      rw [hone]
      omega
  · intro f hempty
    apply htimeout f 1 2
    intro k _
    rw [hempty k]
    simp [nonEmptyObs]

/-- Witness for `C1_poll_loop_lifecycle`: applies the first-completion part at
a fetch that is empty for two attempts and non-empty from the third on, and
the timeout part at an always-empty fetch. -/
theorem C1_poll_loop_lifecycle_witness :
    ((∀ j, j < 2 → nonEmptyObs ((fun j => if j < 2 then some 0 else some 5) j) = false)
      ∧ nonEmptyObs ((fun j => if j < 2 then some 0 else some 5) 2) = true
      ∧ 2 * sleepMs 1 < 4 * 1000
      ∧ pollAndDownload (fun j => if j < 2 then some 0 else some 5) 1 4
          = PollResult.complete 3)
  ∧ ((∀ k : Nat, (fun _ => (some 0 : FetchOutcome)) k = some 0)
      ∧ pollAndDownload (fun _ => (some 0 : FetchOutcome)) 1 2 = PollResult.timedOut) := by
  have h1 : ∀ j, j < 2 → nonEmptyObs ((fun j => if j < 2 then some 0 else some 5) j) = false := by
    decide
  have h2 : nonEmptyObs ((fun j => if j < 2 then some 0 else some 5) 2) = true := by decide
  have h3 : 2 * sleepMs 1 < 4 * 1000 := by decide
  have h4 : ∀ k : Nat, (fun _ => (some 0 : FetchOutcome)) k = some 0 := fun _ => rfl
  exact ⟨⟨h1, h2, h3, C1_poll_loop_lifecycle.1 _ 1 4 2 h1 h2 h3⟩,
    ⟨h4, C1_poll_loop_lifecycle.2.2.2.2 _ h4⟩⟩

/-! ### Credential resolution (`getKaggleCreds` in `kaggleCli.ts`)

Three sources are consulted in order: the secret-store entry, the
`KAGGLE_TOKEN_JSON` environment variable (both JSON blobs), and the
`KAGGLE_USERNAME`/`KAGGLE_KEY` pair.  `JSON.parse` is modelled by an oracle
returning the `username`/`key` fields of the parsed object (`none` when the
parse throws or the value has no such field); JavaScript truthiness on a
string is non-emptiness. -/

/-- A resolved credential pair. -/
structure Creds where
  username : String
  key : String
deriving DecidableEq, Repr

/-- The `username` and `key` fields of a parsed JSON token object; a field is
`none` when absent (or not a string). -/
structure TokenFields where
  username : Option String
  key : Option String
deriving DecidableEq, Repr

/-- Abstract `JSON.parse` oracle: `none` models a thrown parse error. -/
abbrev JsonParse := String → Option TokenFields

/-- JavaScript truthiness of a string: every string but the empty one. -/
def truthy (s : String) : Bool := s ≠ ""

/-- Steps 1 and 2 of `getKaggleCreds`: a raw JSON blob source.  The blob must
be present and truthy, parse, and carry truthy `username` and `key` fields;
otherwise the source yields nothing and resolution falls through. -/
def credsFromJsonSource (parse : JsonParse) (raw : Option String) : Option Creds :=
  match raw with
  | none => none
  | some s =>
    if truthy s then
      match parse s with
      | none => none
      | some tf =>
        match tf.username, tf.key with
        | some u, some k => if truthy u && truthy k then some ⟨u, k⟩ else none
        | _, _ => none
    else none

/-- Step 3 of `getKaggleCreds`: the pair of discrete environment variables,
both of which must be present and truthy. -/
def credsFromDiscreteEnv (u k : Option String) : Option Creds :=
  match u, k with
  | some us, some ks => if truthy us && truthy ks then some ⟨us, ks⟩ else none
  | _, _ => none

/-- The credential environment: secret store entry and the three environment
variables read by `getKaggleCreds`. -/
structure CredEnv where
  secretToken : Option String
  kaggleTokenJson : Option String
  kaggleUsername : Option String
  kaggleKey : Option String

/-- The function `getKaggleCreds` from `kaggleCli.ts`: secret store, then
`KAGGLE_TOKEN_JSON`, then `KAGGLE_USERNAME`/`KAGGLE_KEY`; `none` models the
thrown `No Kaggle token found` error. -/
def getKaggleCreds (parse : JsonParse) (env : CredEnv) : Option Creds :=
  match credsFromJsonSource parse env.secretToken with
  | some c => some c
  | none =>
    match credsFromJsonSource parse env.kaggleTokenJson with
    | some c => some c
    | none => credsFromDiscreteEnv env.kaggleUsername env.kaggleKey

/-- The three sources in the fixed priority order stated by the spec. -/
def specSources (parse : JsonParse) (env : CredEnv) : List (Option Creds) :=
  [credsFromJsonSource parse env.secretToken,
   credsFromJsonSource parse env.kaggleTokenJson,
   credsFromDiscreteEnv env.kaggleUsername env.kaggleKey]

/-- Modelled from the spec's words: resolution returns the yield of the
highest-priority source that yields a structurally valid pair. -/
def resolveSpec (parse : JsonParse) (env : CredEnv) : Option Creds :=
  (specSources parse env).findSome? id

/-- C2: `getKaggleCreds` returns the pair of the highest-priority structurally
valid source (secret store, then JSON-blob variable, then discrete variable
pair), skipping malformed or incomplete sources silently, and fails if and
only if none of the three sources yields a pair with both fields non-empty. -/
theorem C2_credential_resolution (parse : JsonParse) (env : CredEnv) :
    getKaggleCreds parse env = resolveSpec parse env
  ∧ (getKaggleCreds parse env = none ↔ ∀ src ∈ specSources parse env, src = none)
  ∧ (∀ c, credsFromJsonSource parse env.secretToken = some c →
      getKaggleCreds parse env = some c)
  ∧ (∀ c, credsFromJsonSource parse env.secretToken = none →
      credsFromJsonSource parse env.kaggleTokenJson = some c →
      getKaggleCreds parse env = some c)
  ∧ (credsFromJsonSource parse env.secretToken = none →
      credsFromJsonSource parse env.kaggleTokenJson = none →
      getKaggleCreds parse env = credsFromDiscreteEnv env.kaggleUsername env.kaggleKey) := by
  refine ⟨?_, ?_, ?_, ?_, ?_⟩
  · cases h1 : credsFromJsonSource parse env.secretToken with
    | some c => simp [getKaggleCreds, resolveSpec, specSources, h1, List.findSome?]
    | none =>
      cases h2 : credsFromJsonSource parse env.kaggleTokenJson with
      | some c => simp [getKaggleCreds, resolveSpec, specSources, h1, h2, List.findSome?]
      | none =>
        simp only [getKaggleCreds, resolveSpec, specSources, h1, h2, List.findSome?, id]
        cases credsFromDiscreteEnv env.kaggleUsername env.kaggleKey <;> rfl
  · cases h1 : credsFromJsonSource parse env.secretToken with
    | some c => simp [getKaggleCreds, specSources, h1]
    | none =>
      cases h2 : credsFromJsonSource parse env.kaggleTokenJson with
      | some c => simp [getKaggleCreds, specSources, h1, h2]
      | none => simp [getKaggleCreds, specSources, h1, h2]
  · intro c h1
    simp [getKaggleCreds, h1]
  · intro c h1 h2
    simp [getKaggleCreds, h1, h2]
  · intro h1 h2
    simp [getKaggleCreds, h1, h2]

/-- Witness for `C2_credential_resolution`: a concrete environment in which
the secret store is malformed, the JSON-blob variable is valid, and the
discrete pair is also set; resolution returns the JSON-blob pair. -/
theorem C2_credential_resolution_witness :
    (credsFromJsonSource (fun s => if s = "good" then some ⟨some "alice", some "k1"⟩ else none)
        (CredEnv.mk (some "bad") (some "good") (some "bob") (some "k2")).secretToken = none)
  ∧ (credsFromJsonSource (fun s => if s = "good" then some ⟨some "alice", some "k1"⟩ else none)
        (CredEnv.mk (some "bad") (some "good") (some "bob") (some "k2")).kaggleTokenJson
      = some ⟨"alice", "k1"⟩)
  ∧ getKaggleCreds (fun s => if s = "good" then some ⟨some "alice", some "k1"⟩ else none)
        (CredEnv.mk (some "bad") (some "good") (some "bob") (some "k2"))
      = some ⟨"alice", "k1"⟩ := by
  have h1 : credsFromJsonSource (fun s => if s = "good" then some ⟨some "alice", some "k1"⟩ else none)
      (CredEnv.mk (some "bad") (some "good") (some "bob") (some "k2")).secretToken = none := by
    decide
  have h2 : credsFromJsonSource (fun s => if s = "good" then some ⟨some "alice", some "k1"⟩ else none)
      (CredEnv.mk (some "bad") (some "good") (some "bob") (some "k2")).kaggleTokenJson
      = some ⟨"alice", "k1"⟩ := by decide
  exact ⟨h1, h2,
    (C2_credential_resolution (fun s => if s = "good" then some ⟨some "alice", some "k1"⟩ else none)
      (CredEnv.mk (some "bad") (some "good") (some "bob") (some "k2"))).2.2.2.1 _ h1 h2⟩

/-! ### Dataset attachment (`kaggle.attachDataset` / `kaggle.attachDatasetFromTree`)

Both commands run `yml.datasets = Array.from(new Set([...(yml.datasets || []),
ds]))`.  A JavaScript `Set` keeps the first occurrence of each element in
insertion order, which `jsSetAdd` reproduces. -/

/-- The body of `Array.from(new Set(l))` with `seen` the elements already in the set:
first-occurrence deduplication in insertion order. -/
def jsSetAdd (seen : List String) : List String → List String
  | [] => []
  | x :: xs => if x ∈ seen then jsSetAdd seen xs else x :: jsSetAdd (x :: seen) xs

/-- The expression `Array.from(new Set(l))`. -/
def arrayFromSet (l : List String) : List String := jsSetAdd [] l

/-- The `datasets` update performed by the attach-dataset commands:
`Array.from(new Set([...(yml.datasets || []), ds]))`. -/
def attachDatasets (datasets : Option (List String)) (ds : String) : List String :=
  arrayFromSet (datasets.getD [] ++ [ds])

theorem mem_jsSetAdd (x : String) :
    ∀ (l seen : List String), x ∈ jsSetAdd seen l ↔ x ∈ l ∧ x ∉ seen := by
  intro l
  induction l with
  | nil => intro seen; simp [jsSetAdd]
  | cons y ys ih =>
    intro seen
    by_cases hy : y ∈ seen
    · rw [jsSetAdd, if_pos hy, ih]
      constructor
      · rintro ⟨hmem, hnot⟩
        exact ⟨List.mem_cons_of_mem _ hmem, hnot⟩
      · rintro ⟨hmem, hnot⟩
        rcases List.mem_cons.mp hmem with h | h
        · exact absurd (h ▸ hy) hnot
        · exact ⟨h, hnot⟩
    · rw [jsSetAdd, if_neg hy]
      simp only [List.mem_cons, ih]
      constructor
      · rintro (rfl | ⟨h1, h2⟩)
        · exact ⟨Or.inl rfl, hy⟩
        · exact ⟨Or.inr h1, fun hs => h2 (Or.inr hs)⟩
      · rintro ⟨hxy | hx, hnot⟩
        · exact Or.inl hxy
        · by_cases hxy : x = y
          · exact Or.inl hxy
          · exact Or.inr ⟨hx, fun hs => hs.elim hxy hnot⟩

theorem nodup_jsSetAdd : ∀ (l seen : List String), (jsSetAdd seen l).Nodup := by
  intro l
  induction l with
  | nil => intro seen; simp [jsSetAdd]
  | cons y ys ih =>
    intro seen
    by_cases hy : y ∈ seen
    · rw [jsSetAdd, if_pos hy]; exact ih seen
    · rw [jsSetAdd, if_neg hy]
      refine List.nodup_cons.mpr ⟨?_, ih (y :: seen)⟩
      intro hmem
      exact ((mem_jsSetAdd y ys (y :: seen)).mp hmem).2 (List.mem_cons_self y seen)

theorem jsSetAdd_fixpoint :
    ∀ (l seen : List String), l.Nodup → (∀ x ∈ l, x ∉ seen) → jsSetAdd seen l = l := by
  intro l
  induction l with
  | nil => intro seen _ _; rfl
  | cons y ys ih =>
    intro seen hnd hdisj
    rw [jsSetAdd, if_neg (hdisj y (List.mem_cons_self y ys))]
    congr 1
    apply ih (y :: seen) (List.nodup_cons.mp hnd).2
    intro x hx hmem
    rcases List.mem_cons.mp hmem with h | h
    · exact (List.nodup_cons.mp hnd).1 (h ▸ hx)
    · exact hdisj x (List.mem_cons_of_mem _ hx) h

theorem jsSetAdd_append_singleton (a : String) :
    ∀ (l seen : List String),
      jsSetAdd seen (l ++ [a])
        = if a ∈ seen ∨ a ∈ l then jsSetAdd seen l else jsSetAdd seen l ++ [a] := by
  intro l
  induction l with
  | nil =>
    intro seen
    by_cases ha : a ∈ seen <;> simp [jsSetAdd, ha]
  | cons y ys ih =>
    intro seen
    by_cases hy : y ∈ seen
    · rw [List.cons_append, jsSetAdd, if_pos hy, ih, jsSetAdd, if_pos hy]
      by_cases hcond : a ∈ seen ∨ a ∈ ys
      · rw [if_pos hcond, if_pos (by
          rcases hcond with h | h
          · exact Or.inl h
          · exact Or.inr (List.mem_cons_of_mem _ h))]
      · by_cases hay : a = y
        · rw [if_pos (Or.inl (hay ▸ hy)), if_pos (Or.inr (List.mem_cons.mpr (Or.inl hay)))]
        · rw [if_neg hcond, if_neg (by
            rintro (h | h)
            · exact hcond (Or.inl h)
            · rcases List.mem_cons.mp h with h' | h'
              · exact hay h'
              · exact hcond (Or.inr h'))]
    · rw [List.cons_append, jsSetAdd, if_neg hy, ih, jsSetAdd, if_neg hy]
      have hiff : (a ∈ y :: seen ∨ a ∈ ys) ↔ (a ∈ seen ∨ a ∈ y :: ys) := by
        simp only [List.mem_cons]
        tauto
      by_cases hcond : a ∈ y :: seen ∨ a ∈ ys
      · rw [if_pos hcond, if_pos (hiff.mp hcond)]
      · rw [if_neg hcond, if_neg (fun h => hcond (hiff.mpr h)), List.cons_append]

/-- C5: attaching a dataset slug yields a `datasets` list containing exactly
one entry for that slug, attaching it again changes nothing, the result has
no duplicates at all, and membership is exactly the old members plus the new
slug. -/
theorem C5_attach_dataset_dedup (datasets : Option (List String)) (ds : String) :
    (attachDatasets datasets ds).count ds = 1
  ∧ attachDatasets (some (attachDatasets datasets ds)) ds = attachDatasets datasets ds
  ∧ (attachDatasets datasets ds).Nodup
  ∧ (∀ x, x ∈ attachDatasets datasets ds ↔ x ∈ datasets.getD [] ∨ x = ds) := by
  have hmem : ∀ x, x ∈ attachDatasets datasets ds ↔ x ∈ datasets.getD [] ∨ x = ds := by
    intro x
    rw [attachDatasets, arrayFromSet, mem_jsSetAdd]
    simp
  have hnd : (attachDatasets datasets ds).Nodup := nodup_jsSetAdd _ _
  have hds : ds ∈ attachDatasets datasets ds := (hmem ds).mpr (Or.inr rfl)
  refine ⟨List.count_eq_one_of_mem hnd hds, ?_, hnd, hmem⟩
  show arrayFromSet (attachDatasets datasets ds ++ [ds]) = attachDatasets datasets ds
  rw [arrayFromSet, jsSetAdd_append_singleton]
  rw [if_pos (Or.inr hds)]
  exact jsSetAdd_fixpoint _ [] hnd (by simp)

/-! ### Shell escaping and CLI invocation (`escapeShellArg`, `runKaggleCLI`)

`escapeShellArg` wraps an argument in double quotes doubling internal double
quotes on Windows, and in single quotes replacing each internal single quote
by the four characters quote-backslash-quote-quote on other platforms.
`runKaggleCLI` builds the command line from `cliPath` and the escaped
arguments only, and passes the resolved credentials exclusively as the
`KAGGLE_USERNAME` and `KAGGLE_KEY` environment variables layered on top of
the inherited process environment. -/

/-- The replacement `arg.replace(/"/g, '""')` at character level. -/
def dupQuotes : List Char → List Char
  | [] => []
  | c :: cs => if c = dquote then dquote :: dquote :: dupQuotes cs else c :: dupQuotes cs

/-- The replacement `arg.replace(/'/g, "'\\''")` at character level: each single quote becomes
quote, backslash, quote, quote. -/
def escSingleQuotes : List Char → List Char
  | [] => []
  | c :: cs =>
    if c = squote then squote :: bslash :: squote :: squote :: escSingleQuotes cs
    else c :: escSingleQuotes cs

/-- The function `escapeShellArg` from `kaggleCli.ts`; `isWin` models
`process.platform === 'win32'`. -/
def escapeShellArg (isWin : Bool) (arg : String) : String :=
  if isWin then String.mk (dquote :: (dupQuotes arg.data ++ [dquote]))
  else String.mk (squote :: (escSingleQuotes arg.data ++ [squote]))

/-- What `runKaggleCLI` hands to `exec`: the command-line string, the child
environment, and the working directory. -/
structure SpawnSpec where
  commandLine : String
  envOf : String → Option String
  cwd : Option String

/-- The `exec` call built by `runKaggleCLI`:
command line `cliPath ++ escaped arguments joined by spaces`, environment
`{...process.env, KAGGLE_USERNAME, KAGGLE_KEY}`. -/
def buildKaggleInvocation (cliPath : String) (args : List String) (isWin : Bool)
    (procEnv : String → Option String) (creds : Creds) (cwd : Option String) : SpawnSpec where
  commandLine := cliPath ++ " " ++ String.intercalate " " (args.map (escapeShellArg isWin))
  envOf := fun k =>
    if k = "KAGGLE_USERNAME" then some creds.username
    else if k = "KAGGLE_KEY" then some creds.key
    else procEnv k
  cwd := cwd

/-- C8: the spawned child receives the credentials as exactly the two
environment variables `KAGGLE_USERNAME` and `KAGGLE_KEY` layered over the
inherited environment, and the constructed command-line string does not
depend on the credentials at all (so the construction never places the
username or key on the command line). -/
theorem C8_credentials_only_in_env :
    ∀ (cliPath : String) (args : List String) (isWin : Bool)
      (procEnv : String → Option String) (c c' : Creds) (cwd : Option String),
      (buildKaggleInvocation cliPath args isWin procEnv c cwd).commandLine
        = (buildKaggleInvocation cliPath args isWin procEnv c' cwd).commandLine
    ∧ (buildKaggleInvocation cliPath args isWin procEnv c cwd).envOf "KAGGLE_USERNAME"
        = some c.username
    ∧ (buildKaggleInvocation cliPath args isWin procEnv c cwd).envOf "KAGGLE_KEY"
        = some c.key
    ∧ (∀ k, k ≠ "KAGGLE_USERNAME" → k ≠ "KAGGLE_KEY" →
        (buildKaggleInvocation cliPath args isWin procEnv c cwd).envOf k = procEnv k) := by
  intro cliPath args isWin procEnv c c' cwd
  refine ⟨rfl, by simp [buildKaggleInvocation], by simp [buildKaggleInvocation], ?_⟩
  intro k h1 h2
  simp [buildKaggleInvocation, h1, h2]

/-- Witness for `C8_credentials_only_in_env`: for a concrete invocation, a
variable other than the two credential variables is read through unchanged
from the inherited environment. -/
theorem C8_credentials_only_in_env_witness :
    (("PATH" : String) ≠ "KAGGLE_USERNAME") ∧ (("PATH" : String) ≠ "KAGGLE_KEY")
  ∧ (buildKaggleInvocation "kaggle" ["kernels", "push", "-p", "."] false
        (fun k => if k = "PATH" then some "/usr/bin" else none)
        (Creds.mk "alice" "secret1") none).envOf "PATH"
      = (fun k => if k = "PATH" then some "/usr/bin" else none) "PATH" := by
  have h1 : ("PATH" : String) ≠ "KAGGLE_USERNAME" := by decide
  have h2 : ("PATH" : String) ≠ "KAGGLE_KEY" := by decide
  exact ⟨h1, h2,
    (C8_credentials_only_in_env "kaggle" ["kernels", "push", "-p", "."] false
      (fun k => if k = "PATH" then some "/usr/bin" else none)
      (Creds.mk "alice" "secret1") (Creds.mk "alice" "secret1") none).2.2.2 "PATH" h1 h2⟩

/-! ### Shell-argument tokenizers

The platform shells are external collaborators; the two tokenizers below are
modelled from the spec's description of the quoting conventions: a POSIX-style
tokenizer (single quotes quote everything, a backslash outside quotes escapes
the next character, unquoted whitespace separates words) and a Windows-style
tokenizer (double quotes quote, a doubled double quote inside a quoted region
is a literal double quote, unquoted whitespace separates words). -/

/-- POSIX-style word splitting.  State: inside single quotes, pending
backslash escape, whether the current word has started, current word. -/
def unixTokGo (inSq esc started : Bool) (cur : List Char) : List Char → List String
  | [] => if started then [String.mk cur] else []
  | c :: rest =>
    if esc then unixTokGo inSq false true (cur ++ [c]) rest
    else if inSq then
      if c = squote then unixTokGo false false started cur rest
      else unixTokGo true false started (cur ++ [c]) rest
    else
      if c = bslash then unixTokGo false true started cur rest
      else if c = squote then unixTokGo true false true cur rest
      else if c = ' ' ∨ c = '\t' ∨ c = '\n' then
        if started then String.mk cur :: unixTokGo false false false [] rest
        else unixTokGo false false false [] rest
      else unixTokGo false false true (cur ++ [c]) rest

/-- POSIX-style shell-argument tokenizer. -/
def unixTokenize (s : String) : List String := unixTokGo false false false [] s.data

/-- Windows-style word splitting with double-quote doubling, as a one-symbol
state machine.  State: inside double quotes, pending double quote seen inside
a quoted region (a following double quote is a literal one, anything else
means the region closed before it), whether the current word has started,
current word. -/
def winTokGo (inDq qpend started : Bool) (cur : List Char) : List Char → List String
  | [] => if started then [String.mk cur] else []
  | c :: rest =>
    if qpend then
      if c = dquote then winTokGo true false started (cur ++ [dquote]) rest
      else if c = ' ' ∨ c = '\t' then
        if started then String.mk cur :: winTokGo false false false [] rest
        else winTokGo false false false [] rest
      else winTokGo false false true (cur ++ [c]) rest
    else if inDq then
      if c = dquote then winTokGo true true started cur rest
      else winTokGo true false started (cur ++ [c]) rest
    else
      if c = dquote then winTokGo true false true cur rest
      else if c = ' ' ∨ c = '\t' then
        if started then String.mk cur :: winTokGo false false false [] rest
        else winTokGo false false false [] rest
      else winTokGo false false true (cur ++ [c]) rest

/-- Windows-style shell-argument tokenizer. -/
def winTokenize (s : String) : List String := winTokGo false false false [] s.data

theorem unixTokGo_escBody (cs : List Char) :
    ∀ cur tail, unixTokGo true false true cur (escSingleQuotes cs ++ tail)
      = unixTokGo true false true (cur ++ cs) tail := by
  induction cs with
  | nil => intro cur tail; simp [escSingleQuotes]
  | cons c cs' ih =>
    intro cur tail
    by_cases hc : c = squote
    · subst hc
      rw [show escSingleQuotes (squote :: cs')
            = squote :: bslash :: squote :: squote :: escSingleQuotes cs' from by
          rw [escSingleQuotes, if_pos rfl]]
      have hstep : unixTokGo true false true cur
          (squote :: bslash :: squote :: squote :: (escSingleQuotes cs' ++ tail))
          = unixTokGo true false true (cur ++ [squote]) (escSingleQuotes cs' ++ tail) := rfl
      rw [List.cons_append, List.cons_append, List.cons_append, List.cons_append, hstep, ih]
      simp
    · rw [show escSingleQuotes (c :: cs') = c :: escSingleQuotes cs' from by
          rw [escSingleQuotes, if_neg hc]]
      rw [List.cons_append]
      have hstep : unixTokGo true false true cur (c :: (escSingleQuotes cs' ++ tail))
          = unixTokGo true false true (cur ++ [c]) (escSingleQuotes cs' ++ tail) := by
        simp only [unixTokGo]
        simp [hc]
      rw [hstep, ih]
      simp

theorem winTokGo_escBody (cs : List Char) :
    ∀ cur tail, winTokGo true false true cur (dupQuotes cs ++ tail)
      = winTokGo true false true (cur ++ cs) tail := by
  induction cs with
  | nil => intro cur tail; simp [dupQuotes]
  | cons c cs' ih =>
    intro cur tail
    by_cases hc : c = dquote
    · subst hc
      rw [show dupQuotes (dquote :: cs') = dquote :: dquote :: dupQuotes cs' from by
          rw [dupQuotes, if_pos rfl]]
      have hstep : winTokGo true false true cur (dquote :: dquote :: (dupQuotes cs' ++ tail))
          = winTokGo true false true (cur ++ [dquote]) (dupQuotes cs' ++ tail) := rfl
      rw [List.cons_append, List.cons_append, hstep, ih]
      simp
    · rw [show dupQuotes (c :: cs') = c :: dupQuotes cs' from by
          rw [dupQuotes, if_neg hc]]
      rw [List.cons_append]
      have hstep : winTokGo true false true cur (c :: (dupQuotes cs' ++ tail))
          = winTokGo true false true (cur ++ [c]) (dupQuotes cs' ++ tail) := by
        simp only [winTokGo]
        simp [hc]
      rw [hstep, ih]
      simp

/-- C4: escaping any argument with the platform quoting convention and
tokenizing the result with that platform's shell-argument tokenizer yields
exactly the original argument, on both conventions. -/
theorem C4_escape_roundtrip (arg : String) :
    unixTokenize (escapeShellArg false arg) = [arg]
  ∧ winTokenize (escapeShellArg true arg) = [arg] := by
  constructor
  · have h1 : unixTokenize (escapeShellArg false arg)
        = unixTokGo true false true [] (escSingleQuotes arg.data ++ [squote]) := rfl
    have h2 : unixTokGo true false true arg.data [squote] = [arg] := rfl
    rw [h1, unixTokGo_escBody, List.nil_append, h2]
  · have h1 : winTokenize (escapeShellArg true arg)
        = winTokGo true false true [] (dupQuotes arg.data ++ [dquote]) := rfl
    have h2 : winTokGo true false true arg.data [dquote] = [arg] := rfl
    rw [h1, winTokGo_escBody, List.nil_append, h2]

/-! ### Run URL extraction and the run log (`kaggle.runCurrentNotebook`, `logRun`)

After a successful push the command runs
`res.stdout.match(/https?:\/\/www\.kaggle\.com\/[\w\-\/]+/)` and, when a
match exists, appends one `<timestamp> | <url>` line to `.kaggle-run.log`.
The regex is embedded as a leftmost scan trying, at each position, the
literal head `https://www.kaggle.com/` then `http://www.kaggle.com/`
followed by a greedy non-empty run of word characters, hyphens and
slashes. -/

/-- The character class `[\w\-\/]`. -/
def isUrlChar (c : Char) : Bool := c.isAlphanum || c = '_' || c = '-' || c = '/'

/-- The literal part of the pattern with the `s` alternative taken. -/
def urlHeadHttps : List Char := "https://www.kaggle.com/".data

/-- The literal part of the pattern without the `s` alternative. -/
def urlHeadHttp : List Char := "http://www.kaggle.com/".data

/-- Strip a literal prefix, returning the remainder on success. -/
def dropLit : List Char → List Char → Option (List Char)
  | [], cs => some cs
  | _ :: _, [] => none
  | p :: ps, c :: cs => if c = p then dropLit ps cs else none

/-- Match one alternative of the pattern at the head of `cs`: the literal
`head` followed by a greedy non-empty run of URL characters. -/
def matchHeadAt (head cs : List Char) : Option String :=
  match dropLit head cs with
  | none => none
  | some rest =>
    let run := rest.takeWhile isUrlChar
    if run.isEmpty then none else some (String.mk (head ++ run))

/-- Match the whole pattern at the head of `cs` (greedy `s?`: the `https`
alternative is preferred). -/
def matchUrlAt (cs : List Char) : Option String :=
  match matchHeadAt urlHeadHttps cs with
  | some u => some u
  | none => matchHeadAt urlHeadHttp cs

/-- Leftmost match: scan positions left to right. -/
def firstUrlGo : List Char → Option String
  | [] => none
  | c :: rest =>
    match matchUrlAt (c :: rest) with
    | some u => some u
    | none => firstUrlGo rest

/-- The call `s.match(/https?:\/\/www\.kaggle\.com\/[\w\-\/]+/)`, first match or none. -/
def firstUrlMatch (s : String) : Option String := firstUrlGo s.data

/-- The URL extraction in `kaggle.runCurrentNotebook` / `kaggle.pushRun`:
the pattern is applied to `res.stdout` only. -/
def extractRunUrl (stdout : String) : Option String := firstUrlMatch stdout

/-- One `<ISO8601 timestamp> | <url>` line of `.kaggle-run.log`. -/
structure RunRecord where
  timestamp : String
  url : String
deriving DecidableEq, Repr

/-- The run-log effect of a successful push with output `stdout`/`stderr`:
`logRun` appends one record exactly when the pattern matches `stdout`. -/
def logAfterPush (log : List RunRecord) (ts : String) (stdout _stderr : String) :
    List RunRecord :=
  match extractRunUrl stdout with
  | some url => log ++ [⟨ts, url⟩]
  | none => log

theorem dropLit_sound : ∀ (p cs r : List Char), dropLit p cs = some r → cs = p ++ r := by
  intro p
  induction p with
  | nil =>
    intro cs r h
    simp only [dropLit, Option.some.injEq] at h
    simp [h]
  | cons x ps ih =>
    intro cs r h
    cases cs with
    | nil => simp [dropLit] at h
    | cons c cs' =>
      simp only [dropLit] at h
      by_cases hcx : c = x
      · rw [if_pos hcx] at h
        subst hcx
        rw [List.cons_append]
        exact congrArg _ (ih cs' r h)
      · rw [if_neg hcx] at h
        exact absurd h (by simp)

theorem dropWhile_shape (p : Char → Bool) :
    ∀ l : List Char, l.dropWhile p = [] ∨
      ∃ c t, l.dropWhile p = c :: t ∧ p c = false := by
  intro l
  induction l with
  | nil => exact Or.inl rfl
  | cons c t ih =>
    cases hpc : p c with
    | true => rw [List.dropWhile, hpc]; exact ih
    | false => rw [List.dropWhile, hpc]; exact Or.inr ⟨c, t, rfl, hpc⟩

theorem mem_takeWhile_urlChar (p : Char → Bool) :
    ∀ (l : List Char) (c : Char), c ∈ l.takeWhile p → p c = true := by
  intro l
  induction l with
  | nil => intro c h; simp [List.takeWhile] at h
  | cons x t ih =>
    intro c h
    cases hpx : p x with
    | true =>
      rw [List.takeWhile, hpx] at h
      rcases List.mem_cons.mp h with h' | h'
      · exact h' ▸ hpx
      · exact ih c h'
    | false => rw [List.takeWhile, hpx] at h; simp at h

theorem matchHeadAt_sound (head cs : List Char) (u : String)
    (h : matchHeadAt head cs = some u) :
    ∃ run post, cs = (head ++ run) ++ post ∧ u.data = head ++ run ∧ run ≠ []
      ∧ (∀ c ∈ run, isUrlChar c = true)
      ∧ (post = [] ∨ ∃ c t, post = c :: t ∧ isUrlChar c = false) := by
  unfold matchHeadAt at h
  cases hdl : dropLit head cs with
  | none => rw [hdl] at h; exact absurd h (by simp)
  | some rest =>
    rw [hdl] at h
    simp only at h
    by_cases hrun : (rest.takeWhile isUrlChar).isEmpty
    · rw [if_pos hrun] at h; exact absurd h (by simp)
    · rw [if_neg hrun] at h
      refine ⟨rest.takeWhile isUrlChar, rest.dropWhile isUrlChar, ?_, ?_, ?_, ?_, ?_⟩
      · rw [List.append_assoc, List.takeWhile_append_dropWhile]
        exact dropLit_sound head cs rest hdl
      · have hu : u = String.mk (head ++ rest.takeWhile isUrlChar) := by
          simpa using h.symm
        rw [hu]
      · intro hx; rw [hx] at hrun; exact hrun rfl
      · exact fun c hc => mem_takeWhile_urlChar isUrlChar rest c hc
      · exact dropWhile_shape isUrlChar rest

theorem matchUrlAt_sound (cs : List Char) (u : String)
    (h : matchUrlAt cs = some u) :
    ∃ head run post, (head = urlHeadHttps ∨ head = urlHeadHttp)
      ∧ cs = (head ++ run) ++ post ∧ u.data = head ++ run ∧ run ≠ []
      ∧ (∀ c ∈ run, isUrlChar c = true)
      ∧ (post = [] ∨ ∃ c t, post = c :: t ∧ isUrlChar c = false) := by
  unfold matchUrlAt at h
  cases h1 : matchHeadAt urlHeadHttps cs with
  | some u' =>
    rw [h1] at h
    simp only [Option.some.injEq] at h
    subst h
    obtain ⟨run, post, h2, h3, h4, h5, h6⟩ := matchHeadAt_sound urlHeadHttps cs u' h1
    exact ⟨urlHeadHttps, run, post, Or.inl rfl, h2, h3, h4, h5, h6⟩
  | none =>
    rw [h1] at h
    simp only at h
    obtain ⟨run, post, h2, h3, h4, h5, h6⟩ := matchHeadAt_sound urlHeadHttp cs u h
    exact ⟨urlHeadHttp, run, post, Or.inr rfl, h2, h3, h4, h5, h6⟩

theorem firstUrlGo_sound : ∀ (cs : List Char) (u : String), firstUrlGo cs = some u →
    ∃ pre suf, cs = pre ++ suf ∧ matchUrlAt suf = some u
      ∧ ∀ k, k < pre.length → matchUrlAt (cs.drop k) = none := by
  intro cs
  induction cs with
  | nil => intro u h; simp [firstUrlGo] at h
  | cons c rest ih =>
    intro u h
    rw [firstUrlGo] at h
    cases hm : matchUrlAt (c :: rest) with
    | some u' =>
      rw [hm] at h
      simp only [Option.some.injEq] at h
      subst h
      exact ⟨[], c :: rest, rfl, hm, fun k hk => absurd hk (by simp)⟩
    | none =>
      rw [hm] at h
      simp only at h
      obtain ⟨pre, suf, h1, h2, h3⟩ := ih u h
      refine ⟨c :: pre, suf, by rw [List.cons_append, h1], h2, ?_⟩
      intro k hk
      cases k with
      | zero => simpa using hm
      | succ k' =>
        rw [List.drop_succ_cons]
        exact h3 k' (by simpa using hk)

/-- C3 counterexample: the code matches the URL pattern against `stdout`
only.  With `stdout` lacking a URL and `stderr` carrying one, the combined
output has a match, yet no record is appended, contradicting the claim that
a record is appended if and only if the combined stdout+stderr output
matches. -/
theorem C3_counterexample :
    firstUrlMatch ("Done." ++ "View at https://www.kaggle.com/code/bob/my-run now")
      = some "https://www.kaggle.com/code/bob/my-run"
  ∧ extractRunUrl "Done." = none
  ∧ logAfterPush [] "2024-01-01T00:00:00Z" "Done."
      "View at https://www.kaggle.com/code/bob/my-run now" = [] := by
  refine ⟨by decide, by decide, ?_⟩
  have h : extractRunUrl "Done." = none := by decide
  simp [logAfterPush, h]

/-- C3 (amended: the URL is extracted from `stdout` alone, not from the
combined stdout+stderr output): after a successful push, the extracted URL is
the first substring of `stdout` matching the Kaggle URL pattern; exactly one
RunRecord with that URL is appended iff such a match exists, and the absence
of a match is not an error (the log is simply left unchanged). -/
theorem C3_run_url_logging (log : List RunRecord) (ts stdout stderr : String) :
    (∀ u, extractRunUrl stdout = some u →
        logAfterPush log ts stdout stderr = log ++ [⟨ts, u⟩]
      ∧ ∃ pre post : List Char, stdout.data = pre ++ (u.data ++ post)
          ∧ (∀ k, k < pre.length → matchUrlAt (stdout.data.drop k) = none)
          ∧ matchUrlAt (u.data ++ post) = some u
          ∧ ∃ head run, (head = urlHeadHttps ∨ head = urlHeadHttp)
              ∧ u.data = head ++ run ∧ run ≠ [] ∧ (∀ c ∈ run, isUrlChar c = true)
              ∧ (post = [] ∨ ∃ c t, post = c :: t ∧ isUrlChar c = false))
  ∧ (extractRunUrl stdout = none → logAfterPush log ts stdout stderr = log)
  ∧ (logAfterPush log ts stdout stderr).length
      = log.length + (if (extractRunUrl stdout).isSome then 1 else 0) := by
  refine ⟨?_, ?_, ?_⟩
  · intro u hu
    constructor
    · simp [logAfterPush, hu]
    · obtain ⟨pre, suf, h1, h2, h3⟩ := firstUrlGo_sound stdout.data u hu
      obtain ⟨head, run, post, hhead, hsuf, hdata, hrun, hall, hpost⟩ :=
        matchUrlAt_sound suf u h2
      have hsuf' : suf = u.data ++ post := by rw [hsuf, hdata]
      refine ⟨pre, post, ?_, ?_, ?_, head, run, hhead, hdata, hrun, hall, hpost⟩
      · rw [h1, hsuf']
      · intro k hk
        exact h3 k hk
      · rw [← hsuf']
        exact h2
  · intro h
    simp [logAfterPush, h]
  · cases h : extractRunUrl stdout with
    | some u => simp [logAfterPush, h]
    | none => simp [logAfterPush, h]

/-- Witness for `C3_run_url_logging`: the spec's scenario, with the remote
service domain instantiated to the real one — output text
`Your job can be viewed at https://www.kaggle.com/code/bob/my-run here`
yields that URL and appends exactly one record carrying it. -/
theorem C3_run_url_logging_witness :
    (extractRunUrl "Your job can be viewed at https://www.kaggle.com/code/bob/my-run here"
      = some "https://www.kaggle.com/code/bob/my-run")
  ∧ (logAfterPush [] "2024-01-01T00:00:00Z"
        "Your job can be viewed at https://www.kaggle.com/code/bob/my-run here" ""
      = [⟨"2024-01-01T00:00:00Z", "https://www.kaggle.com/code/bob/my-run"⟩]
    ∧ ∃ pre post : List Char,
        ("Your job can be viewed at https://www.kaggle.com/code/bob/my-run here" : String).data
          = pre ++ (("https://www.kaggle.com/code/bob/my-run" : String).data ++ post)
        ∧ (∀ k, k < pre.length →
            matchUrlAt (("Your job can be viewed at https://www.kaggle.com/code/bob/my-run here" : String).data.drop k) = none)
        ∧ matchUrlAt (("https://www.kaggle.com/code/bob/my-run" : String).data ++ post)
            = some "https://www.kaggle.com/code/bob/my-run"
        ∧ ∃ head run, (head = urlHeadHttps ∨ head = urlHeadHttp)
            ∧ ("https://www.kaggle.com/code/bob/my-run" : String).data = head ++ run
            ∧ run ≠ [] ∧ (∀ c ∈ run, isUrlChar c = true)
            ∧ (post = [] ∨ ∃ c t, post = c :: t ∧ isUrlChar c = false)) := by
  have h : extractRunUrl "Your job can be viewed at https://www.kaggle.com/code/bob/my-run here"
      = some "https://www.kaggle.com/code/bob/my-run" := by decide
  exact ⟨h, (C3_run_url_logging [] "2024-01-01T00:00:00Z"
    "Your job can be viewed at https://www.kaggle.com/code/bob/my-run here" "").1 _ h⟩

/-! ### CSV field splitting (`splitCsv` in `myNotebooksProvider.ts`)

The source walks the line with a quote-aware state machine (outside/inside
quotes, a doubled quote inside quotes is one literal quote), splits on
unquoted commas, and finally maps `s.replace(/^\"|\"$/g, '')` over the
fields, removing at most one leading and one trailing double quote from each
decoded field value.  The one-character-lookahead of the source
(`line[i + 1]`) is rendered as a pending-quote state. -/

/-- The state machine of `splitCsv`.  `qpend` records that the previous
character was a double quote seen inside quotes: a following double quote is
one literal quote (the source's `inQ && line[i+1] === '"'` lookahead),
anything else means the quoted region ended before it. -/
def splitCsvGo (inQ qpend : Bool) (cur : List Char) (out : List String) :
    List Char → List String
  | [] => out ++ [String.mk cur]
  | c :: rest =>
    if qpend then
      if c = dquote then splitCsvGo true false (cur ++ [dquote]) out rest
      else if c = ',' then splitCsvGo false false [] (out ++ [String.mk cur]) rest
      else splitCsvGo false false (cur ++ [c]) out rest
    else if inQ then
      if c = dquote then splitCsvGo true true cur out rest
      else splitCsvGo true false (cur ++ [c]) out rest
    else
      if c = dquote then splitCsvGo true false cur out rest
      else if c = ',' then splitCsvGo false false [] (out ++ [String.mk cur]) rest
      else splitCsvGo false false (cur ++ [c]) out rest

/-- The replacement `s.replace(/^\"|\"$/g, '')`: strip at most one leading and one trailing
double quote. -/
def stripOuterQuotes (s : String) : String :=
  let l1 := match s.data with
    | c :: rest => if c = dquote then rest else s.data
    | [] => []
  String.mk (if l1.getLast? = some dquote then l1.dropLast else l1)

/-- The function `splitCsv` from `myNotebooksProvider.ts`. -/
def splitCsv (line : String) : List String :=
  (splitCsvGo false false [] [] line.data).map stripOuterQuotes

/-- Standard CSV quoting needed (the field contains a comma or a quote), per
the claim's encoding. -/
def csvNeedsQuote (f : List Char) : Bool := f.any (fun c => c = ',' || c = dquote)

/-- Modelled from the claim's words: standard CSV encoding of one field —
wrap in double quotes and double embedded quotes when the field contains a
comma or a quote, otherwise leave it bare. -/
def csvEncodeFieldChars (f : List Char) : List Char :=
  if csvNeedsQuote f then dquote :: (dupQuotes f ++ [dquote]) else f

/-- Standard CSV encoding of a data row: encoded fields joined by commas. -/
def csvEncodeRowChars : List (List Char) → List Char
  | [] => []
  | [f] => csvEncodeFieldChars f
  | f :: rest => csvEncodeFieldChars f ++ ',' :: csvEncodeRowChars rest

/-- Standard CSV encoding of a data row of string fields. -/
def csvEncodeRow (fields : List String) : String :=
  String.mk (csvEncodeRowChars (fields.map String.data))

theorem splitCsvGo_quotedBody (f : List Char) :
    ∀ cur out tail, splitCsvGo true false cur out (dupQuotes f ++ tail)
      = splitCsvGo true false (cur ++ f) out tail := by
  induction f with
  | nil => intro cur out tail; simp [dupQuotes]
  | cons c f' ih =>
    intro cur out tail
    by_cases hc : c = dquote
    · subst hc
      rw [show dupQuotes (dquote :: f') = dquote :: dquote :: dupQuotes f' from by
          rw [dupQuotes, if_pos rfl]]
      have hstep : splitCsvGo true false cur out (dquote :: dquote :: (dupQuotes f' ++ tail))
          = splitCsvGo true false (cur ++ [dquote]) out (dupQuotes f' ++ tail) := rfl
      rw [List.cons_append, List.cons_append, hstep, ih]
      simp
    · rw [show dupQuotes (c :: f') = c :: dupQuotes f' from by rw [dupQuotes, if_neg hc]]
      rw [List.cons_append]
      have hstep : splitCsvGo true false cur out (c :: (dupQuotes f' ++ tail))
          = splitCsvGo true false (cur ++ [c]) out (dupQuotes f' ++ tail) := by
        simp only [splitCsvGo]
        simp [hc]
      rw [hstep, ih]
      simp

theorem splitCsvGo_bareBody (f : List Char) :
    ∀ cur out tail, (∀ c ∈ f, ¬(c = ',' || c = dquote) = true) →
      splitCsvGo false false cur out (f ++ tail)
        = splitCsvGo false false (cur ++ f) out tail := by
  induction f with
  | nil => intro cur out tail _; simp
  | cons c f' ih =>
    intro cur out tail hf
    have hc := hf c (List.mem_cons_self c f')
    simp only [Bool.or_eq_true, decide_eq_true_eq, not_or] at hc
    rw [List.cons_append]
    have hstep : splitCsvGo false false cur out (c :: (f' ++ tail))
        = splitCsvGo false false (cur ++ [c]) out (f' ++ tail) := by
      simp only [splitCsvGo]
      simp [hc.1, hc.2]
    rw [hstep, ih _ _ _ (fun x hx => hf x (List.mem_cons_of_mem c hx))]
    simp

theorem splitCsvGo_row : ∀ (fields : List (List Char)), fields ≠ [] →
    ∀ out, splitCsvGo false false [] out (csvEncodeRowChars fields)
      = out ++ fields.map String.mk := by
  intro fields
  induction fields with
  | nil => intro h; exact absurd rfl h
  | cons f rest ih =>
    intro _ out
    cases rest with
    | nil =>
      rw [show csvEncodeRowChars [f] = csvEncodeFieldChars f from rfl]
      rw [csvEncodeFieldChars]
      by_cases hq : csvNeedsQuote f = true
      · rw [if_pos hq]
        have hopen : splitCsvGo false false [] out (dquote :: (dupQuotes f ++ [dquote]))
            = splitCsvGo true false [] out (dupQuotes f ++ [dquote]) := rfl
        rw [hopen, splitCsvGo_quotedBody, List.nil_append]
        rfl
      · rw [if_neg hq]
        have hbare : ∀ c ∈ f, ¬(c = ',' || c = dquote) = true := by
          intro c hc hcontra
          rw [csvNeedsQuote] at hq
          exact hq (List.any_eq_true.mpr ⟨c, hc, hcontra⟩)
        have := splitCsvGo_bareBody f [] out [] hbare
        rw [List.append_nil] at this
        rw [this, List.nil_append]
        rfl
    | cons g rest' =>
      rw [show csvEncodeRowChars (f :: g :: rest')
            = csvEncodeFieldChars f ++ ',' :: csvEncodeRowChars (g :: rest') from rfl]
      rw [csvEncodeFieldChars]
      by_cases hq : csvNeedsQuote f = true
      · rw [if_pos hq]
        rw [List.cons_append, List.append_assoc]
        have hopen : splitCsvGo false false [] out
              (dquote :: (dupQuotes f ++ ([dquote] ++ ',' :: csvEncodeRowChars (g :: rest'))))
            = splitCsvGo true false [] out
              (dupQuotes f ++ ([dquote] ++ ',' :: csvEncodeRowChars (g :: rest'))) := rfl
        rw [hopen, splitCsvGo_quotedBody, List.nil_append]
        have hclose : splitCsvGo true false f out
              ([dquote] ++ ',' :: csvEncodeRowChars (g :: rest'))
            = splitCsvGo false false [] (out ++ [String.mk f])
              (csvEncodeRowChars (g :: rest')) := rfl
        rw [hclose, ih (by simp)]
        simp
      · rw [if_neg hq]
        have hbare : ∀ c ∈ f, ¬(c = ',' || c = dquote) = true := by
          intro c hc hcontra
          rw [csvNeedsQuote] at hq
          exact hq (List.any_eq_true.mpr ⟨c, hc, hcontra⟩)
        rw [splitCsvGo_bareBody f [] out _ hbare, List.nil_append]
        have hcomma : splitCsvGo false false f out (',' :: csvEncodeRowChars (g :: rest'))
            = splitCsvGo false false [] (out ++ [String.mk f])
              (csvEncodeRowChars (g :: rest')) := rfl
        rw [hcomma, ih (by simp)]
        simp

theorem stripOuterQuotes_id (f : List Char)
    (h1 : f.head? ≠ some dquote) (h2 : f.getLast? ≠ some dquote) :
    stripOuterQuotes (String.mk f) = String.mk f := by
  rw [stripOuterQuotes]
  cases f with
  | nil => rfl
  | cons c rest =>
    simp only [List.head?_cons, ne_eq, Option.some.injEq] at h1
    simp only
    rw [if_neg h1]
    rw [if_neg h2]

/-- C7 counterexample: a field consisting of one literal double quote is
encoded (standard CSV quoting) as four quotes, but `splitCsv` decodes that
row to the empty field: the state machine decodes the doubled quote to one
literal quote, and the final `replace(/^\"|\"$/g, '')` then strips it.  So
the splitter does not return exactly the original field values. -/
theorem C7_counterexample :
    csvEncodeRow [String.mk [dquote]] = String.mk [dquote, dquote, dquote, dquote]
  ∧ splitCsv (csvEncodeRow [String.mk [dquote]]) = [""]
  ∧ String.mk [dquote] ≠ "" := by
  refine ⟨by decide, by decide, by decide⟩

/-- C7 (amended: restricted to rows of at least one field in which no field
value starts or ends with a literal double-quote character; the final
quote-stripping `replace` of `splitCsv` destroys such values): decoding a
standard-CSV-encoded data row with `splitCsv` returns exactly the original
field values — embedded commas inside quoted fields do not split, and each
doubled quote decodes to one literal quote. -/
theorem C7_splitCsv_roundtrip (fields : List String) (hne : fields ≠ [])
    (hq : ∀ f ∈ fields, f.data.head? ≠ some dquote ∧ f.data.getLast? ≠ some dquote) :
    splitCsv (csvEncodeRow fields) = fields := by
  rw [splitCsv, csvEncodeRow]
  rw [show (String.mk (csvEncodeRowChars (fields.map String.data))).data
        = csvEncodeRowChars (fields.map String.data) from rfl]
  rw [splitCsvGo_row (fields.map String.data) (by simpa using hne) []]
  rw [List.nil_append]
  have hmk : List.map String.mk (List.map String.data fields) = fields := by
    rw [List.map_map]
    calc fields.map (String.mk ∘ String.data)
        = fields.map id := List.map_congr_left (fun f _ => rfl)
      _ = fields := List.map_id fields
  rw [hmk]
  have hid : ∀ f ∈ fields, stripOuterQuotes f = f := by
    intro f hf
    obtain ⟨h1, h2⟩ := hq f hf
    exact stripOuterQuotes_id f.data h1 h2
  calc fields.map stripOuterQuotes
      = fields.map id := List.map_congr_left hid
    _ = fields := List.map_id fields

/-- Witness for `C7_splitCsv_roundtrip`: a row with an embedded comma and an
embedded doubled quote round-trips. -/
theorem C7_splitCsv_roundtrip_witness :
    ((["a,b", String.mk ['c', dquote, 'd'], "plain"] : List String) ≠ [])
  ∧ (∀ f ∈ (["a,b", String.mk ['c', dquote, 'd'], "plain"] : List String),
      f.data.head? ≠ some dquote ∧ f.data.getLast? ≠ some dquote)
  ∧ splitCsv (csvEncodeRow ["a,b", String.mk ['c', dquote, 'd'], "plain"])
      = ["a,b", String.mk ['c', dquote, 'd'], "plain"] := by
  have h1 : (["a,b", String.mk ['c', dquote, 'd'], "plain"] : List String) ≠ [] := by decide
  have h2 : ∀ f ∈ (["a,b", String.mk ['c', dquote, 'd'], "plain"] : List String),
      f.data.head? ≠ some dquote ∧ f.data.getLast? ≠ some dquote := by decide
  exact ⟨h1, h2, C7_splitCsv_roundtrip _ h1 h2⟩

/-! ### Project configuration round trip (`kaggle.yml`, `kaggle.attachDataset`)

The `KaggleYml` interface of `extension.ts` with its optional fields, a
small YAML value universe, and the serialization to / parse from a key-value
document, mirroring how `js-yaml` lays out the file.  The attach-dataset
command is the read-modify-write `load`, update `datasets`, `dump`. -/

/-- The `accelerator` enumeration. -/
inductive Accel where
  | none
  | gpu
  | tpu
deriving DecidableEq, Repr

/-- The `privacy` enumeration (`private` / `public`). -/
inductive Privacy where
  | priv
  | pub
deriving DecidableEq, Repr

/-- The nested `outputs` block. -/
structure Outputs where
  download_to : Option String
deriving DecidableEq, Repr

/-- The `KaggleYml` interface of `extension.ts`: all fields beyond the three
mandatory ones are optional, and the mandatory ones may be absent in a
hand-edited file too, so every field is optional here. -/
structure KaggleYml where
  project : Option String
  kernel_slug : Option String
  code_file : Option String
  accelerator : Option Accel
  internet : Option Bool
  privacy : Option Privacy
  datasets : Option (List String)
  competitions : Option (List String)
  outputs : Option Outputs
deriving DecidableEq, Repr

/-- YAML scalar / sequence / nested-mapping values as used by `kaggle.yml`. -/
inductive YVal where
  | s (v : String)
  | b (v : Bool)
  | strs (v : List String)
  | omap (v : List (String × YVal))
deriving Repr

/-- A key-value entry for an optional field: absent fields produce no entry. -/
def optEntry (k : String) : Option YVal → List (String × YVal)
  | some v => [(k, v)]
  | none => []

/-- The `accelerator` values as serialized. -/
def accelStr : Accel → String
  | Accel.none => "none"
  | Accel.gpu => "gpu"
  | Accel.tpu => "tpu"

/-- Parse an `accelerator` value. -/
def accelOfStr (s : String) : Option Accel :=
  if s = "none" then some Accel.none
  else if s = "gpu" then some Accel.gpu
  else if s = "tpu" then some Accel.tpu
  else none

/-- The `privacy` values as serialized. -/
def privacyStr : Privacy → String
  | Privacy.priv => "private"
  | Privacy.pub => "public"

/-- Parse a `privacy` value. -/
def privacyOfStr (s : String) : Option Privacy :=
  if s = "private" then some Privacy.priv
  else if s = "public" then some Privacy.pub
  else none

/-- Serialize the nested `outputs` block. -/
def dumpOutputs (o : Outputs) : YVal := YVal.omap (optEntry "download_to" (o.download_to.map YVal.s))

/-- The `yaml.dump` of a `KaggleYml` value: the key-value document. -/
def dumpYml (y : KaggleYml) : List (String × YVal) :=
  optEntry "project" (y.project.map YVal.s) ++
  optEntry "kernel_slug" (y.kernel_slug.map YVal.s) ++
  optEntry "code_file" (y.code_file.map YVal.s) ++
  optEntry "accelerator" (y.accelerator.map (fun a => YVal.s (accelStr a))) ++
  optEntry "internet" (y.internet.map YVal.b) ++
  optEntry "privacy" (y.privacy.map (fun p => YVal.s (privacyStr p))) ++
  optEntry "datasets" (y.datasets.map YVal.strs) ++
  optEntry "competitions" (y.competitions.map YVal.strs) ++
  optEntry "outputs" (y.outputs.map dumpOutputs)

/-- Look a key up in a key-value document (first binding wins). -/
def lookupY (k : String) : List (String × YVal) → Option YVal
  | [] => none
  | (k', v) :: rest => if k' = k then some v else lookupY k rest

/-- Read a string-valued key. -/
def asStr : Option YVal → Option String
  | some (YVal.s v) => some v
  | _ => none

/-- Read a boolean-valued key. -/
def asBool : Option YVal → Option Bool
  | some (YVal.b v) => some v
  | _ => none

/-- Read a string-list-valued key. -/
def asStrs : Option YVal → Option (List String)
  | some (YVal.strs v) => some v
  | _ => none

/-- Read a nested-mapping key. -/
def asMap : Option YVal → Option (List (String × YVal))
  | some (YVal.omap v) => some v
  | _ => none

/-- Parse the nested `outputs` block. -/
def loadOutputs (m : List (String × YVal)) : Outputs :=
  ⟨asStr (lookupY "download_to" m)⟩

/-- The `yaml.load` of a `kaggle.yml` document into the `KaggleYml` shape. -/
def loadYml (kvs : List (String × YVal)) : KaggleYml where
  project := asStr (lookupY "project" kvs)
  kernel_slug := asStr (lookupY "kernel_slug" kvs)
  code_file := asStr (lookupY "code_file" kvs)
  accelerator := (asStr (lookupY "accelerator" kvs)).bind accelOfStr
  internet := asBool (lookupY "internet" kvs)
  privacy := (asStr (lookupY "privacy" kvs)).bind privacyOfStr
  datasets := asStrs (lookupY "datasets" kvs)
  competitions := asStrs (lookupY "competitions" kvs)
  outputs := (asMap (lookupY "outputs" kvs)).map loadOutputs

/-- The body of `kaggle.attachDataset`: load the file, replace only the
`datasets` field by the deduplicated union with the new slug, dump the whole
file. -/
def attachDatasetCmd (file : List (String × YVal)) (ds : String) : List (String × YVal) :=
  let yml := loadYml file
  dumpYml { yml with datasets := some (attachDatasets yml.datasets ds) }

theorem lookupY_append (k : String) :
    ∀ l1 l2, lookupY k (l1 ++ l2)
      = match lookupY k l1 with
        | some v => some v
        | none => lookupY k l2 := by
  intro l1
  induction l1 with
  | nil => intro l2; rfl
  | cons p rest ih =>
    intro l2
    obtain ⟨k', v⟩ := p
    by_cases hk : k' = k
    · rw [List.cons_append, lookupY, if_pos hk, lookupY, if_pos hk]
    · rw [List.cons_append, lookupY, if_neg hk, lookupY, if_neg hk]
      exact ih l2

theorem lookupY_optEntry (k k' : String) (v : Option YVal) :
    lookupY k (optEntry k' v) = if k' = k then v else none := by
  cases v with
  | some x =>
    rw [optEntry, lookupY]
    by_cases hk : k' = k
    · rw [if_pos hk, if_pos hk]
    · rw [if_neg hk, if_neg hk]
      rfl
  | none =>
    rw [optEntry]
    by_cases hk : k' = k
    · rw [lookupY, if_pos hk]
    · rw [lookupY, if_neg hk]

theorem lookupY_dump_project (y : KaggleYml) :
    lookupY "project" (dumpYml y) = y.project.map YVal.s := by
  simp [dumpYml, lookupY_append, lookupY_optEntry]
  cases y.project <;> rfl

theorem lookupY_dump_kernel_slug (y : KaggleYml) :
    lookupY "kernel_slug" (dumpYml y) = y.kernel_slug.map YVal.s := by
  simp [dumpYml, lookupY_append, lookupY_optEntry]
  cases y.kernel_slug <;> rfl

theorem lookupY_dump_code_file (y : KaggleYml) :
    lookupY "code_file" (dumpYml y) = y.code_file.map YVal.s := by
  simp [dumpYml, lookupY_append, lookupY_optEntry]
  cases y.code_file <;> rfl

theorem lookupY_dump_accelerator (y : KaggleYml) :
    lookupY "accelerator" (dumpYml y)
      = y.accelerator.map (fun a => YVal.s (accelStr a)) := by
  simp [dumpYml, lookupY_append, lookupY_optEntry]
  cases y.accelerator <;> rfl

theorem lookupY_dump_internet (y : KaggleYml) :
    lookupY "internet" (dumpYml y) = y.internet.map YVal.b := by
  simp [dumpYml, lookupY_append, lookupY_optEntry]
  cases y.internet <;> rfl

theorem lookupY_dump_privacy (y : KaggleYml) :
    lookupY "privacy" (dumpYml y) = y.privacy.map (fun p => YVal.s (privacyStr p)) := by
  simp [dumpYml, lookupY_append, lookupY_optEntry]
  cases y.privacy <;> rfl

theorem lookupY_dump_datasets (y : KaggleYml) :
    lookupY "datasets" (dumpYml y) = y.datasets.map YVal.strs := by
  simp [dumpYml, lookupY_append, lookupY_optEntry]
  cases y.datasets <;> rfl

theorem lookupY_dump_competitions (y : KaggleYml) :
    lookupY "competitions" (dumpYml y) = y.competitions.map YVal.strs := by
  simp [dumpYml, lookupY_append, lookupY_optEntry]
  cases y.competitions <;> rfl

theorem lookupY_dump_outputs (y : KaggleYml) :
    lookupY "outputs" (dumpYml y) = y.outputs.map dumpOutputs := by
  simp [dumpYml, lookupY_append, lookupY_optEntry]

theorem asStr_map_s (o : Option String) : asStr (o.map YVal.s) = o := by
  cases o <;> rfl

theorem asBool_map_b (o : Option Bool) : asBool (o.map YVal.b) = o := by
  cases o <;> rfl

theorem asStrs_map_strs (o : Option (List String)) : asStrs (o.map YVal.strs) = o := by
  cases o <;> rfl

theorem accel_str_roundtrip (o : Option Accel) :
    (asStr (o.map (fun a => YVal.s (accelStr a)))).bind accelOfStr = o := by
  cases o with
  | none => rfl
  | some a => cases a <;> rfl

theorem privacy_str_roundtrip (o : Option Privacy) :
    (asStr (o.map (fun p => YVal.s (privacyStr p)))).bind privacyOfStr = o := by
  cases o with
  | none => rfl
  | some p => cases p <;> rfl

theorem outputs_roundtrip (o : Option Outputs) :
    (asMap (o.map dumpOutputs)).map loadOutputs = o := by
  cases o with
  | none => rfl
  | some ob =>
    obtain ⟨od⟩ := ob
    cases od <;> rfl

theorem loadYml_dumpYml (y : KaggleYml) : loadYml (dumpYml y) = y := by
  simp only [loadYml, lookupY_dump_project, lookupY_dump_kernel_slug,
    lookupY_dump_code_file, lookupY_dump_accelerator, lookupY_dump_internet,
    lookupY_dump_privacy, lookupY_dump_datasets, lookupY_dump_competitions,
    lookupY_dump_outputs, asStr_map_s, asBool_map_b, asStrs_map_strs,
    accel_str_roundtrip, privacy_str_roundtrip, outputs_roundtrip]

/-- C6: the dump/load round trip loses no `KaggleYml` field, and the
read-modify-write performed by the attach-dataset command changes only the
`datasets` field — every other field of the stored configuration is exactly
preserved. -/
theorem C6_config_roundtrip_frame (y : KaggleYml) (ds : String) :
    loadYml (dumpYml y) = y
  ∧ (loadYml (attachDatasetCmd (dumpYml y) ds)).project = y.project
  ∧ (loadYml (attachDatasetCmd (dumpYml y) ds)).kernel_slug = y.kernel_slug
  ∧ (loadYml (attachDatasetCmd (dumpYml y) ds)).code_file = y.code_file
  ∧ (loadYml (attachDatasetCmd (dumpYml y) ds)).accelerator = y.accelerator
  ∧ (loadYml (attachDatasetCmd (dumpYml y) ds)).internet = y.internet
  ∧ (loadYml (attachDatasetCmd (dumpYml y) ds)).privacy = y.privacy
  ∧ (loadYml (attachDatasetCmd (dumpYml y) ds)).competitions = y.competitions
  ∧ (loadYml (attachDatasetCmd (dumpYml y) ds)).outputs = y.outputs
  ∧ (loadYml (attachDatasetCmd (dumpYml y) ds)).datasets
      = some (attachDatasets y.datasets ds) := by
  have h1 : attachDatasetCmd (dumpYml y) ds
      = dumpYml { y with datasets := some (attachDatasets y.datasets ds) } := by
    rw [attachDatasetCmd, loadYml_dumpYml]
  rw [h1]
  simp [loadYml_dumpYml]

/-! ### Run history status (`RunsProvider.getChildren`, `hasAnyRecentFile`)

`getChildren` reads the last 50 run-log records, marks only the most recent
one, and gives it status `complete` exactly when some file under the
configured output directory has a modification time at or after the run's
timestamp (`hasAnyRecentFile` recurses into subdirectories).  The filesystem
is modelled as a tree of entries with mtimes; `Date` parsing of the ISO
timestamp label is an oracle `timeOf`. -/

/-- A directory entry: a file with its `mtimeMs`, or a subdirectory. -/
inductive FsEntry where
  | file (name : String) (mtimeMs : Int)
  | dir (name : String) (children : List FsEntry)

mutual
/-- One step of `hasAnyRecentFile`: directories recurse, files compare
`st.mtimeMs >= sinceMs`. -/
def entryHasRecent (sinceMs : Int) : FsEntry → Bool
  | FsEntry.file _ m => sinceMs ≤ m
  | FsEntry.dir _ cs => hasAnyRecentFile sinceMs cs

/-- The function `hasAnyRecentFile` from `runsProvider.ts` over a directory listing. -/
def hasAnyRecentFile (sinceMs : Int) : List FsEntry → Bool
  | [] => false
  | e :: es => entryHasRecent sinceMs e || hasAnyRecentFile sinceMs es
end

mutual
/-- All file modification times below one entry. -/
def entryMtimes : FsEntry → List Int
  | FsEntry.file _ m => [m]
  | FsEntry.dir _ cs => mtimesList cs

/-- All file modification times below a directory listing. -/
def mtimesList : List FsEntry → List Int
  | [] => []
  | e :: es => entryMtimes e ++ mtimesList es
end

/-- Status `complete` / `pending` of the most recent run. -/
inductive RunStatus where
  | complete
  | pending
deriving DecidableEq, Repr

/-- A tree item of the runs view. -/
structure RunItemM where
  label : String
  url : String
  isLatest : Bool
  status : Option RunStatus
deriving DecidableEq, Repr

/-- The mutation applied to the most recent item: `isLatest := true` and a
status from the output-directory recency check at the run's timestamp. -/
def markItem (timeOf : String → Int) (outDir : List FsEntry) (it : RunItemM) : RunItemM :=
  { it with
    isLatest := true
    status := some (if hasAnyRecentFile (timeOf it.label) outDir then RunStatus.complete
                    else RunStatus.pending) }

/-- Mark the last element of the item list, leaving the rest untouched. -/
def markLatest (timeOf : String → Int) (outDir : List FsEntry) :
    List RunItemM → List RunItemM
  | [] => []
  | [it] => [markItem timeOf outDir it]
  | it :: rest => it :: markLatest timeOf outDir rest

/-- The method `RunsProvider.getChildren` after the log has been split into
`(timestamp, url)` records: keep the last 50, build plain items, and mark the
most recent one. -/
def runsChildren (timeOf : String → Int) (outDir : List FsEntry)
    (recs : List (String × String)) : List RunItemM :=
  markLatest timeOf outDir
    ((recs.drop (recs.length - 50)).map (fun r => ⟨r.1, r.2, false, none⟩))

theorem hasAnyRecentFile_iff (since : Int) :
    ∀ (n : Nat) (es : List FsEntry), sizeOf es ≤ n →
      (hasAnyRecentFile since es = true ↔ ∃ m ∈ mtimesList es, since ≤ m) := by
  intro n
  induction n with
  | zero =>
    intro es hsz
    cases es with
    | nil => simp [hasAnyRecentFile, mtimesList]
    | cons e es' => simp at hsz
  | succ n ih =>
    intro es hsz
    cases es with
    | nil => simp [hasAnyRecentFile, mtimesList]
    | cons e es' =>
      have hsz' : sizeOf es' ≤ n := by
        have := List.cons.sizeOf_spec e es'
        have hpos : 0 < sizeOf e := by
          cases e <;> simp
        omega
      rw [hasAnyRecentFile, mtimesList]
      cases e with
      | file nm m =>
        rw [entryHasRecent, entryMtimes]
        simp only [Bool.or_eq_true, decide_eq_true_eq, List.mem_append, List.mem_singleton]
        rw [ih es' hsz']
        constructor
        · rintro (h | ⟨m', hm', hle⟩)
          · exact ⟨m, Or.inl rfl, h⟩
          · exact ⟨m', Or.inr hm', hle⟩
        · rintro ⟨m', hmem | hmem, hle⟩
          · exact Or.inl (hmem ▸ hle)
          · exact Or.inr ⟨m', hmem, hle⟩
      | dir nm cs =>
        have hszc : sizeOf cs ≤ n := by
          have := List.cons.sizeOf_spec (FsEntry.dir nm cs) es'
          have := FsEntry.dir.sizeOf_spec nm cs
          omega
        rw [entryHasRecent, entryMtimes]
        simp only [Bool.or_eq_true, List.mem_append]
        rw [ih cs hszc, ih es' hsz']
        constructor
        · rintro (⟨m', hm', hle⟩ | ⟨m', hm', hle⟩)
          · exact ⟨m', Or.inl hm', hle⟩
          · exact ⟨m', Or.inr hm', hle⟩
        · rintro ⟨m', hmem | hmem, hle⟩
          · exact Or.inl ⟨m', hmem, hle⟩
          · exact Or.inr ⟨m', hmem, hle⟩

theorem markLatest_eq (timeOf : String → Int) (outDir : List FsEntry) :
    ∀ (l : List RunItemM) (h : l ≠ []),
      markLatest timeOf outDir l = l.dropLast ++ [markItem timeOf outDir (l.getLast h)] := by
  intro l
  induction l with
  | nil => intro h; exact absurd rfl h
  | cons it rest ih =>
    intro _
    cases rest with
    | nil => rfl
    | cons it2 rest' =>
      rw [show markLatest timeOf outDir (it :: it2 :: rest')
            = it :: markLatest timeOf outDir (it2 :: rest') from rfl]
      rw [ih (by simp)]
      conv_rhs => rw [List.dropLast_cons_of_ne_nil (l := it2 :: rest') (by simp)]
      rw [List.getLast_cons (l := it2 :: rest') (by simp)]
      rfl

theorem getLast?_map_eq {α β : Type} (f : α → β) :
    ∀ l : List α, (l.map f).getLast? = (l.getLast?).map f := by
  intro l
  induction l with
  | nil => rfl
  | cons a t ih =>
    cases t with
    | nil => rfl
    | cons b t' =>
      rw [List.map_cons, List.map_cons, List.getLast?_cons_cons,
        List.getLast?_cons_cons, ← List.map_cons]
      exact ih

theorem getLast?_drop_eq {α : Type} :
    ∀ (l : List α) (k : Nat), k < l.length → (l.drop k).getLast? = l.getLast? := by
  intro l
  induction l with
  | nil => intro k hk; simp at hk
  | cons a t ih =>
    intro k hk
    cases k with
    | zero => rfl
    | succ k' =>
      rw [List.drop_succ_cons]
      have hk' : k' < t.length := by simpa using hk
      rw [ih k' hk']
      cases t with
      | nil => simp at hk'
      | cons b t' => rw [List.getLast?_cons_cons]

/-- C9: in a non-empty run log only the most recent record carries a status;
the other items have none.  The most recent record's label is the last log
line's timestamp, it always carries a status, and that status is `complete`
iff some file under the configured output directory has a modification time
at or after the run's timestamp, and `pending` otherwise. -/
theorem C9_latest_run_status (timeOf : String → Int) (outDir : List FsEntry)
    (recs : List (String × String)) (hne : recs ≠ []) :
    (∀ it ∈ (runsChildren timeOf outDir recs).dropLast,
        it.isLatest = false ∧ it.status = none)
  ∧ ∃ last, (runsChildren timeOf outDir recs).getLast? = some last
      ∧ last.isLatest = true
      ∧ last.label = (recs.getLast hne).1
      ∧ last.status ≠ none
      ∧ (last.status = some RunStatus.complete
          ↔ ∃ m ∈ mtimesList outDir, timeOf last.label ≤ m)
      ∧ (last.status = some RunStatus.pending
          ↔ ¬ ∃ m ∈ mtimesList outDir, timeOf last.label ≤ m) := by
  have hlen : 0 < recs.length := List.length_pos.mpr hne
  have hdropne : recs.drop (recs.length - 50) ≠ [] := by
    intro hcon
    have := congrArg List.length hcon
    rw [List.length_drop] at this
    simp only [List.length_nil] at this
    omega
  have hLne : (recs.drop (recs.length - 50)).map
      (fun r => (⟨r.1, r.2, false, none⟩ : RunItemM)) ≠ [] := by
    intro hcon
    exact hdropne (List.map_eq_nil_iff.mp hcon)
  have hmark := markLatest_eq timeOf outDir _ hLne
  have hrc : runsChildren timeOf outDir recs
      = ((recs.drop (recs.length - 50)).map
          (fun r => (⟨r.1, r.2, false, none⟩ : RunItemM))).dropLast
        ++ [markItem timeOf outDir
            (((recs.drop (recs.length - 50)).map
              (fun r => (⟨r.1, r.2, false, none⟩ : RunItemM))).getLast hLne)] := by
    rw [runsChildren, hmark]
  constructor
  · intro it hit
    rw [hrc, List.dropLast_concat] at hit
    have hmem := List.dropLast_subset _ hit
    obtain ⟨r, _, hr⟩ := List.mem_map.mp hmem
    rw [← hr]
    exact ⟨rfl, rfl⟩
  · have hglast : ((recs.drop (recs.length - 50)).map
        (fun r => (⟨r.1, r.2, false, none⟩ : RunItemM))).getLast hLne
        = (⟨(recs.getLast hne).1, (recs.getLast hne).2, false, none⟩ : RunItemM) := by
      have h1 : ((recs.drop (recs.length - 50)).map
          (fun r => (⟨r.1, r.2, false, none⟩ : RunItemM))).getLast?
          = some (((recs.drop (recs.length - 50)).map
              (fun r => (⟨r.1, r.2, false, none⟩ : RunItemM))).getLast hLne) :=
        List.getLast?_eq_getLast _ hLne
      have h2 : ((recs.drop (recs.length - 50)).map
          (fun r => (⟨r.1, r.2, false, none⟩ : RunItemM))).getLast?
          = some (⟨(recs.getLast hne).1, (recs.getLast hne).2, false, none⟩ : RunItemM) := by
        rw [getLast?_map_eq, getLast?_drop_eq recs _ (by omega),
          List.getLast?_eq_getLast _ hne]
        rfl
      rw [h1] at h2
      exact (Option.some.injEq _ _).mp h2.symm |>.symm
    refine ⟨markItem timeOf outDir
        (((recs.drop (recs.length - 50)).map
          (fun r => (⟨r.1, r.2, false, none⟩ : RunItemM))).getLast hLne), ?_, ?_, ?_, ?_, ?_, ?_⟩
    · rw [hrc]
      exact List.getLast?_concat _
    · rfl
    · rw [hglast]
      rfl
    · rw [markItem]
      simp
    · rw [hglast, markItem]
      simp only
      have hiff := hasAnyRecentFile_iff (timeOf (recs.getLast hne).1) (sizeOf outDir) outDir
        (Nat.le_refl _)
      cases hb : hasAnyRecentFile (timeOf (recs.getLast hne).1) outDir with
      | true =>
        rw [hb] at hiff
        rw [if_pos rfl]
        constructor
        · intro _; exact hiff.mp rfl
        · intro _; rfl
      | false =>
        rw [hb] at hiff
        rw [if_neg (by simp)]
        constructor
        · intro hcon; exact absurd hcon (by simp)
        · intro hex
          exact absurd (hiff.mpr hex) (by simp)
    · rw [hglast, markItem]
      simp only
      have hiff := hasAnyRecentFile_iff (timeOf (recs.getLast hne).1) (sizeOf outDir) outDir
        (Nat.le_refl _)
      cases hb : hasAnyRecentFile (timeOf (recs.getLast hne).1) outDir with
      | true =>
        rw [hb] at hiff
        rw [if_pos rfl]
        constructor
        · intro hcon; exact absurd hcon (by simp)
        · intro hnex; exact absurd (hiff.mp rfl) hnex
      | false =>
        rw [hb] at hiff
        rw [if_neg (by simp)]
        constructor
        · intro _ hex
          exact absurd (hiff.mpr hex) (by simp)
        · intro _; rfl

/-- Witness for `C9_latest_run_status`: a two-record log and an output
directory holding one file with mtime 7, timestamps parsing to 5. -/
theorem C9_latest_run_status_witness :
    (([("2024-01-01T10:00:00Z", "https://www.kaggle.com/code/bob/a"),
       ("2024-01-02T10:00:00Z", "https://www.kaggle.com/code/bob/b")] :
        List (String × String)) ≠ [])
  ∧ ((∀ it ∈ (runsChildren (fun _ => (5 : Int)) [FsEntry.file "out.txt" 7]
          [("2024-01-01T10:00:00Z", "https://www.kaggle.com/code/bob/a"),
           ("2024-01-02T10:00:00Z", "https://www.kaggle.com/code/bob/b")]).dropLast,
        it.isLatest = false ∧ it.status = none)
    ∧ ∃ last, (runsChildren (fun _ => (5 : Int)) [FsEntry.file "out.txt" 7]
          [("2024-01-01T10:00:00Z", "https://www.kaggle.com/code/bob/a"),
           ("2024-01-02T10:00:00Z", "https://www.kaggle.com/code/bob/b")]).getLast?
          = some last
        ∧ last.isLatest = true
        ∧ last.label = "2024-01-02T10:00:00Z"
        ∧ last.status ≠ none
        ∧ (last.status = some RunStatus.complete
            ↔ ∃ m ∈ mtimesList [FsEntry.file "out.txt" 7], (5 : Int) ≤ m)
        ∧ (last.status = some RunStatus.pending
            ↔ ¬ ∃ m ∈ mtimesList [FsEntry.file "out.txt" 7], (5 : Int) ≤ m)) := by
  have hW : ([("2024-01-01T10:00:00Z", "https://www.kaggle.com/code/bob/a"),
      ("2024-01-02T10:00:00Z", "https://www.kaggle.com/code/bob/b")] :
        List (String × String)) ≠ [] := by decide
  exact ⟨hW, C9_latest_run_status (fun _ => (5 : Int)) [FsEntry.file "out.txt" 7]
    [("2024-01-01T10:00:00Z", "https://www.kaggle.com/code/bob/a"),
     ("2024-01-02T10:00:00Z", "https://www.kaggle.com/code/bob/b")] hW⟩

/-! ### Kernel-list CSV parsing (`parseKernelsCsv`, `isCsvWithRef`)

`parseKernelsCsv` splits the CSV text into lines (`/\r?\n/`), drops empty
lines, locates the `ref` and `url` columns by name in the naive-split header
(trimmed, quotes removed, lowercased), splits each data row with `splitCsv`,
and keeps rows with a non-empty `ref`, defaulting an absent or empty `url`
to the Kaggle code URL built from the `ref`. -/

/-- The split `csv.split(/\r?\n/)`: split at `\n`, also consuming a preceding `\r`. -/
def splitLinesRN : List Char → List (List Char)
  | [] => [[]]
  | '\r' :: '\n' :: rest => [] :: splitLinesRN rest
  | '\n' :: rest => [] :: splitLinesRN rest
  | c :: rest =>
    match splitLinesRN rest with
    | [] => [[c]]
    | l :: ls => (c :: l) :: ls

/-- The split `header.split(',')`: naive comma split, no quote handling. -/
def splitOnComma : List Char → List (List Char)
  | [] => [[]]
  | ',' :: rest => [] :: splitOnComma rest
  | c :: rest =>
    match splitOnComma rest with
    | [] => [[c]]
    | l :: ls => (c :: l) :: ls

/-- The trim `s.trim()`. -/
def trimChars (l : List Char) : List Char :=
  ((l.dropWhile Char.isWhitespace).reverse.dropWhile Char.isWhitespace).reverse

/-- One header cell: `h.trim().replace(/"/g, '').toLowerCase()`. -/
def headerCell (l : List Char) : String :=
  String.mk (((trimChars l).filter (fun c => c != dquote)).map Char.toLower)

/-- The processed header cells of a header line. -/
def headersOf (header : String) : List String :=
  (splitOnComma header.data).map headerCell

/-- An entry of the notebooks tree: a kernel reference and its URL. -/
structure KernelItem where
  ref : String
  url : String
deriving DecidableEq, Repr

/-- The `url` cell of a data row: `urlIdx >= 0 ? cols[urlIdx] || '' : ''`. -/
def rowUrl (urlIdx : Option Nat) (line : String) : String :=
  match urlIdx with
  | some j => (splitCsv line).getD j ""
  | none => ""

/-- The per-row body of `parseKernelsCsv`'s loop: split the row with
`splitCsv`, read `ref` and (when the column exists) `url`, default the URL
to `https://www.kaggle.com/code/<ref>`, and keep the row only when `ref` is
non-empty. -/
def rowToItem (refIdx : Nat) (urlIdx : Option Nat) (line : String) : Option KernelItem :=
  let ref := (splitCsv line).getD refIdx ""
  let resolvedUrl := if rowUrl urlIdx line ≠ "" then rowUrl urlIdx line
    else if ref ≠ "" then "https://www.kaggle.com/code/" ++ ref else ""
  if ref ≠ "" then some ⟨ref, resolvedUrl⟩ else none

/-- The function `parseKernelsCsv` from `myNotebooksProvider.ts`. -/
def parseKernelsCsv (csv : String) : List KernelItem :=
  match ((splitLinesRN csv.data).map String.mk).filter (fun s => s != "") with
  | [] => []
  | header :: rows =>
    match (headersOf header).findIdx? (fun h => h == "ref") with
    | none => []
    | some refIdx =>
      rows.filterMap (rowToItem refIdx ((headersOf header).findIdx? (fun h => h == "url")))

/-- The position of the `ref` column in the header row, if any. -/
def headerRefIdx (csv : String) : Option Nat :=
  match ((splitLinesRN csv.data).map String.mk).filter (fun s => s != "") with
  | [] => none
  | header :: _ => (headersOf header).findIdx? (fun h => h == "ref")

theorem string_append_ne_empty (s t : String) (h : s.data ≠ []) : s ++ t ≠ "" := by
  intro hcon
  apply h
  have := congrArg String.data hcon
  rw [String.data_append] at this
  exact List.append_eq_nil.mp this |>.1

theorem rowToItem_spec (refIdx : Nat) (urlIdx : Option Nat) (line : String)
    (it : KernelItem) (h : rowToItem refIdx urlIdx line = some it) :
    it.ref = (splitCsv line).getD refIdx ""
  ∧ it.ref ≠ "" ∧ it.url ≠ ""
  ∧ ((rowUrl urlIdx line ≠ "" ∧ it.url = rowUrl urlIdx line)
     ∨ (rowUrl urlIdx line = "" ∧ it.url = "https://www.kaggle.com/code/" ++ it.ref)) := by
  simp only [rowToItem] at h
  by_cases href : (splitCsv line).getD refIdx "" ≠ ""
  · rw [if_pos href] at h
    obtain ⟨hr, hu⟩ : it.ref = (splitCsv line).getD refIdx ""
        ∧ it.url = (if rowUrl urlIdx line ≠ "" then rowUrl urlIdx line
            else if (splitCsv line).getD refIdx "" ≠ "" then
              "https://www.kaggle.com/code/" ++ (splitCsv line).getD refIdx "" else "") := by
      have hit := (Option.some.inj h).symm
      rw [hit]
      exact ⟨rfl, rfl⟩
    have hrefne : it.ref ≠ "" := by rw [hr]; exact href
    refine ⟨hr, hrefne, ?_, ?_⟩
    · rw [hu]
      by_cases hru : rowUrl urlIdx line ≠ ""
      · rw [if_pos hru]; exact hru
      · rw [if_neg hru, if_pos href]
        exact string_append_ne_empty _ _ (by decide)
    · by_cases hru : rowUrl urlIdx line ≠ ""
      · exact Or.inl ⟨hru, by rw [hu, if_pos hru]⟩
      · refine Or.inr ⟨not_ne_iff.mp hru, ?_⟩
        rw [hu, if_neg hru, if_pos href, hr]
  · rw [if_neg href] at h
    exact absurd h (by simp)

theorem rowToItem_none (refIdx : Nat) (urlIdx : Option Nat) (line : String)
    (h : (splitCsv line).getD refIdx "" = "") :
    rowToItem refIdx urlIdx line = none := by
  simp only [rowToItem]
  rw [if_neg (not_ne_iff.mpr h)]

/-- C10: every item produced by `parseKernelsCsv` has a non-empty `ref` and
a non-empty `url`; the `url` is the row's url cell when that is non-empty
and otherwise defaults to the Kaggle code URL built from the `ref`; a row
whose `ref` cell is empty yields no item; and an input whose header row has
no `ref` column yields no items at all. -/
theorem C10_kernel_items_invariant :
    (∀ csv it, it ∈ parseKernelsCsv csv → it.ref ≠ "" ∧ it.url ≠ "")
  ∧ (∀ refIdx urlIdx line it, rowToItem refIdx urlIdx line = some it →
      it.ref = (splitCsv line).getD refIdx ""
      ∧ ((rowUrl urlIdx line ≠ "" ∧ it.url = rowUrl urlIdx line)
         ∨ (rowUrl urlIdx line = ""
            ∧ it.url = "https://www.kaggle.com/code/" ++ it.ref)))
  ∧ (∀ refIdx urlIdx line, (splitCsv line).getD refIdx "" = "" →
      rowToItem refIdx urlIdx line = none)
  ∧ (∀ csv, headerRefIdx csv = none → parseKernelsCsv csv = []) := by
  refine ⟨?_, ?_, ?_, ?_⟩
  · intro csv it hit
    rw [parseKernelsCsv] at hit
    split at hit
    · simp at hit
    · split at hit
      · simp at hit
      · obtain ⟨line, _, hrow⟩ := List.mem_filterMap.mp hit
        obtain ⟨_, h2, h3, _⟩ := rowToItem_spec _ _ _ _ hrow
        exact ⟨h2, h3⟩
  · intro refIdx urlIdx line it h
    obtain ⟨h1, _, _, h4⟩ := rowToItem_spec refIdx urlIdx line it h
    exact ⟨h1, h4⟩
  · exact rowToItem_none
  · intro csv hnone
    rw [headerRefIdx] at hnone
    rw [parseKernelsCsv]
    split
    · rfl
    · next header rows heq =>
      simp only [heq] at hnone
      split
      · rfl
      · next refIdx heq2 =>
        rw [heq2] at hnone
        exact absurd hnone (by simp)

/-- Witness for `C10_kernel_items_invariant`: a CSV with a `ref` and `url`
header whose single data row has an empty url cell; the produced item's URL
defaults to the Kaggle code URL built from the ref. -/
theorem C10_kernel_items_invariant_witness :
    ((⟨"bob/nb", "https://www.kaggle.com/code/bob/nb"⟩ : KernelItem)
        ∈ parseKernelsCsv "ref,url\nbob/nb,")
  ∧ ("bob/nb" : String) ≠ "" ∧ ("https://www.kaggle.com/code/bob/nb" : String) ≠ "" := by
  have hmem : (⟨"bob/nb", "https://www.kaggle.com/code/bob/nb"⟩ : KernelItem)
      ∈ parseKernelsCsv "ref,url\nbob/nb," := by decide
  exact ⟨hmem, C10_kernel_items_invariant.1 _ _ hmem⟩

end KaggleExt
